import Mathlib

/-!
Verification of the debtcloset repository: a shallow embedding of the
section-editing and exclusion-list logic of `src/debtcloset/pyright/toml.py`
and `src/debtcloset/ruff/toml.py`, together with proofs about it.

Documents and section texts are modelled as `List Char`; Python's
`str.index` (which raises `ValueError` when the needle is absent) is
modelled by the `Option`-valued `findSub`; functions of the source that can
raise become `Option`-valued.  The external analysis tool is modelled as a
function from the staged exclusion list to a list of diagnostic records.
-/

set_option maxHeartbeats 1000000

abbrev Str := List Char

/-- Model of Python substring search: the index of the first occurrence of
`pat` in `l`, or `none` when `pat` does not occur (where `str.index` raises
`ValueError`). -/
def findSub (pat : Str) : Str → Option Nat
  | [] => if pat.isPrefixOf ([] : Str) then some 0 else none
  | c :: rest => if pat.isPrefixOf (c :: rest) then some 0 else (findSub pat rest).map (· + 1)

/-- Model of Python's `in` operator on strings. -/
def containsSub (pat l : Str) : Bool := (findSub pat l).isSome

/-- Lexicographic comparison of Unicode code points; the ordering Python
uses to compare strings in `sorted`. -/
def strLe : Str → Str → Bool
  | [], _ => true
  | _ :: _, [] => false
  | a :: as, b :: bs =>
    if a.toNat < b.toNat then true
    else if b.toNat < a.toNat then false
    else strLe as bs

/-- Insertion step of the model of Python `sorted`. -/
def insertStr (x : Str) : List Str → List Str
  | [] => [x]
  | y :: ys => if strLe x y then x :: y :: ys else y :: insertStr x ys

/-- Model of Python `sorted` on a list of strings (stable, and canonical on
a given multiset because the order is total and antisymmetric). -/
def sortStrs : List Str → List Str
  | [] => []
  | x :: xs => insertStr x (sortStrs xs)

/-- Model of Python `set(...)` deduplication: keeps one copy of each
element.  Subsequent `sorted` makes the chosen representative order
immaterial. -/
def dedupStrs : List Str → List Str
  | [] => []
  | x :: xs => if xs.contains x then dedupStrs xs else x :: dedupStrs xs

/-- Sortedness of a list of strings in the Python string order. -/
def strSorted (l : List Str) : Prop := l.Pairwise (fun a b => strLe a b = true)
/-! ## The embedding of `src/debtcloset/pyright/toml.py` and the shared
document/section editor. -/

/-- Model of one record of pyright's JSON `generalDiagnostics`: only the
fields the source reads. -/
structure Diag where
  file : Str
  severity : Str
deriving DecidableEq

/-- Modelled from the spec: the external `listwrap.align` helper is a
third-party dependency, not part of this repository.  Per the spec (one
aligned, quoted line per path) and the repository's test expectations
(`src/tests/test_pyright.py`), it renders each path as a line of four
spaces, the double-quoted path and a trailing comma, lines joined by
newlines. -/
def align : List Str → Str
  | [] => []
  | [f] => "    \"".toList ++ f ++ "\",".toList
  | f :: g :: rest => "    \"".toList ++ f ++ "\",".toList ++ '\n' :: align (g :: rest)

/-- Verification helper: the text with a final newline guaranteed; the
shape `Pyright.add_exclusions` leaves the pre-existing section text in. -/
def ensureNl (s : Str) : Str := if s.getLast? = some '\n' then s else s ++ ['\n']

namespace Doc

/-- Model of `Pyproject.__post_init__` (pyright) and `Ruff.__post_init__`
(ruff), generic in the header constant: append the section header when
absent. -/
def postInit (header content : Str) : Str :=
  if containsSub header content then content else content ++ '\n' :: (header ++ ['\n'])

/-- Model of `where_start_pyright_section` / `where_start_ruff_section`:
`self.content.index(HEADER)`. -/
def where_start (header content : Str) : Option Nat := findSub header content

/-- Model of `where_end_pyright_section` / `where_end_ruff_section`: end of
the section is the first `"\n["` after the header, or the content length. -/
def where_end (header content : Str) : Option Nat :=
  match where_start header content with
  | none => none
  | some start =>
    let remainder := content.drop (start + header.length)
    match findSub ('\n' :: ['[']) remainder with
    | none => some content.length
    | some i => some (start + header.length + i)

/-- Model of `__call__`: `self.content[start:end]`. -/
def extract (header content : Str) : Option Str :=
  match where_start header content, where_end header content with
  | some s, some e => some ((content.take e).drop s)
  | _, _ => none

/-- Model of `replace`: the source returns a freshly constructed dataclass
`Pyproject(content=self.content[:start] + new_content + self.content[end:])`
(`Ruff(...)` in the ruff module), whose `__post_init__` runs on the spliced
content and appends the header when the splice lacks it. -/
def replace (header content new : Str) : Option Str :=
  match where_start header content, where_end header content with
  | some s, some e => some (postInit header (content.take s ++ new ++ content.drop e))
  | _, _ => none

end Doc

namespace PyrightToml

/-- Constant `ERROR` of the source module. -/
def ERROR : Str := "error".toList

/-- Constant `EXCLUDE` of the source module. -/
def EXCLUDE : Str := "exclude".toList

/-- Constant `HEADER = "[tool.pyright]"` of the source module. -/
def HEADER : Str := "[tool.pyright]".toList

/-- Constant `os.sep` on a posix system, where the source runs. -/
def OSSEP : Char := '/'

/-- Model of `Pyproject.__post_init__`. -/
def Pyproject.postInit (content : Str) : Str := Doc.postInit HEADER content

/-- Model of `Pyproject.where_start_pyright_section`. -/
def Pyproject.where_start_pyright_section (content : Str) : Option Nat :=
  Doc.where_start HEADER content

/-- Model of `Pyproject.where_end_pyright_section`. -/
def Pyproject.where_end_pyright_section (content : Str) : Option Nat :=
  Doc.where_end HEADER content

/-- Model of `Pyproject.__call__`. -/
def Pyproject.extract (content : Str) : Option Str := Doc.extract HEADER content

/-- Model of `Pyproject.replace`. -/
def Pyproject.replace (content new : Str) : Option Str := Doc.replace HEADER content new

/-- Model of `Pyright.__post_init__`: append `"\nexclude = []"` when the
substring `exclude` is absent from the section text. -/
def Pyright.postInit (content : Str) : Str :=
  if containsSub EXCLUDE content then content
  else content ++ '\n' :: (EXCLUDE ++ " = []".toList)

/-- Model of `Pyright.start_exclude`: `self.content.index(f"\n{EXCLUDE}")`. -/
def Pyright.start_exclude (content : Str) : Option Nat :=
  findSub ('\n' :: EXCLUDE) content

/-- Model of `Pyright.end_exclude`: index of the first `"]"` at or after
`start_exclude`, plus one. -/
def Pyright.end_exclude (content : Str) : Option Nat :=
  match Pyright.start_exclude content with
  | none => none
  | some start =>
    match findSub [']'] (content.drop start) with
    | none => none
    | some i => some (start + i + 1)

/-- Model of `Pyright.remove_exclusions`:
`self.content[:start] + self.content[end:]`. -/
def Pyright.remove_exclusions (content : Str) : Option Str :=
  match Pyright.start_exclude content, Pyright.end_exclude content with
  | some s, some e => some (content.take s ++ content.drop e)
  | _, _ => none

/-- Model of `Pyright.add_exclusions`: remove pre-existing exclusions, then
when `files` is nonempty append the rendered block, with a leading newline
when the remaining content does not end in one. -/
def Pyright.add_exclusions (content : Str) (files : List Str) : Option Str :=
  match Pyright.remove_exclusions content with
  | none => none
  | some c =>
    if files = [] then some c
    else
      let excl := EXCLUDE ++ " = [\n".toList ++ align files ++ "\n]\n".toList
      some (if c.getLast? = some '\n' then c ++ excl else c ++ '\n' :: excl)

/-- Verification helper: the rendered exclusion block appended by
`Pyright.add_exclusions` for a nonempty file list. -/
def exclBlock (files : List Str) : Str :=
  EXCLUDE ++ " = [\n".toList ++ align files ++ "\n]\n".toList

/-- Model of the module-level `remove_exclusions(pyproject_toml_path)`: the
document content stands in for the file. -/
def remove_exclusions (doc : Str) : Option Str :=
  let pyproject := Pyproject.postInit doc
  match Pyproject.extract pyproject with
  | none => none
  | some sec =>
    match Pyright.remove_exclusions (Pyright.postInit sec) with
    | none => none
    | some newSec => Pyproject.replace pyproject newSec

/-- Model of the module-level `set_exclusions(pyproject_toml_path, files)`. -/
def set_exclusions (doc : Str) (files : List Str) : Option Str :=
  let pyproject := Pyproject.postInit doc
  match Pyproject.extract pyproject with
  | none => none
  | some sec =>
    match Pyright.add_exclusions (Pyright.postInit sec) files with
    | none => none
    | some newSec => Pyproject.replace pyproject newSec

/-- Pure diagnostic-processing tail of `identify_failing_modules` (source
lines 153-158): distinct `file` fields of the records with severity
`error`, stripped of the repository-root prefix, sorted, separators
normalised. -/
def failing_relpaths (repo_root : Str) (diagnostics : List Diag) : List Str :=
  let fullpaths := dedupStrs ((diagnostics.filter (fun it => it.severity == ERROR)).map (fun it => it.file))
  let len_prefix := repo_root.length + 1
  let relpaths := sortStrs (fullpaths.map (fun p => p.drop len_prefix))
  relpaths.map (fun p => p.map (fun c => if c = OSSEP then '/' else c))

/-- Model of `identify_failing_modules`: stage the required exclusions,
run the external tool (modelled as a function from the staged exclusion
list to the parsed diagnostics), unstage, and return the failing relative
paths together with the resulting document. -/
def identify_failing_modules (tool : List Str → List Diag) (repo_root : Str)
    (doc : Str) (required_exclusions : List Str) : Option (List Str × Str) :=
  match set_exclusions doc required_exclusions with
  | none => none
  | some staged =>
    let output := tool required_exclusions
    match remove_exclusions staged with
    | none => none
    | some unstaged => some (failing_relpaths repo_root output, unstaged)

/-- Constant `default_ignored_directories` of `compile_ignores`. -/
def default_ignored_directories : List Str := [".venv".toList, ".tox".toList, "docs".toList]

/-- Model of `compile_ignores`: `is_dir` tells which names exist as
directories directly under the repository root at call time. -/
def compile_ignores (is_dir : Str → Bool) (required_exclusions : Option (List Str)) : List Str :=
  let ignores := (default_ignored_directories.filter is_dir).map (fun item => item ++ "/*".toList)
  let additional_required_ignores :=
    (dedupStrs (required_exclusions.getD [])).filter (fun r => !(ignores.contains r))
  sortStrs (ignores ++ additional_required_ignores)

/-- The list the source builds at line 186 and hands to `set_exclusions`:
`ignores + failures`. -/
def exclude_files (is_dir : Str → Bool) (tool : List Str → List Diag)
    (repo_root : Str) (required_exclusions : Option (List Str)) : List Str :=
  let ignores := compile_ignores is_dir required_exclusions
  ignores ++ failing_relpaths repo_root (tool ignores)

/-- Model of the entry point `exclude`: clear the baseline, resolve the
ignores, scan, and persist `ignores + failures`.  The document content
stands in for the `pyproject.toml` file (whose existence the source checks
first). -/
def exclude (is_dir : Str → Bool) (tool : List Str → List Diag) (repo_root : Str)
    (doc : Str) (required_exclusions : Option (List Str)) : Option Str :=
  match remove_exclusions doc with
  | none => none
  | some doc1 =>
    let ignores := compile_ignores is_dir required_exclusions
    match identify_failing_modules tool repo_root doc1 ignores with
    | none => none
    | some (failures, doc3) => set_exclusions doc3 (ignores ++ failures)

end PyrightToml

namespace RuffToml

/-- Constant `HEADER = "[tool.ruff]"` of `src/debtcloset/ruff/toml.py`. -/
def HEADER : Str := "[tool.ruff]".toList

/-- Model of `Ruff.__post_init__`. -/
def Ruff.postInit (content : Str) : Str := Doc.postInit HEADER content

/-- Model of `Ruff.replace`. -/
def Ruff.replace (content new : Str) : Option Str := Doc.replace HEADER content new

/-- Model of one record of ruff's JSON report: only the field the source
reads. -/
structure RuffDiag where
  filename : Str
deriving DecidableEq

/-- Model of `run_ruff`: every record of the report counts (no severity
filter); distinct `filename` fields, stripped of the repository-root
prefix, sorted. -/
def run_ruff (output : List RuffDiag) (repo_root : Str) : List Str :=
  if output = [] then []
  else
    let fullpaths := dedupStrs (output.map (fun it => it.filename))
    let len_prefix := repo_root.length + 1
    sortStrs (fullpaths.map (fun p => p.drop len_prefix))

end RuffToml

/-! ## Properties of the string-search and sorting primitives. -/
theorem findSub_some_pre {pat : Str} : ∀ {l : Str} {n : Nat},
    findSub pat l = some n → pat <+: l.drop n := by
  intro l
  induction l with
  | nil =>
    intro n h
    simp only [findSub] at h
    by_cases hp : pat.isPrefixOf ([] : Str)
    · simp [hp] at h
      subst h
      simpa using List.isPrefixOf_iff_prefix.mp hp
    · simp [hp] at h
  | cons c rest ih =>
    intro n h
    simp only [findSub] at h
    by_cases hp : pat.isPrefixOf (c :: rest)
    · simp [hp] at h
      subst h
      simpa using List.isPrefixOf_iff_prefix.mp hp
    · simp [hp, Option.map_eq_some'] at h
      obtain ⟨k, hk, hn⟩ := h
      subst hn
      simpa using ih hk

theorem findSub_some_min {pat : Str} : ∀ {l : Str} {n : Nat},
    findSub pat l = some n → ∀ m, m < n → ¬ pat <+: l.drop m := by
  intro l
  induction l with
  | nil =>
    intro n h m hm
    simp only [findSub] at h
    by_cases hp : pat.isPrefixOf ([] : Str)
    · simp [hp] at h; omega
    · simp [hp] at h
  | cons c rest ih =>
    intro n h m hm
    simp only [findSub] at h
    by_cases hp : pat.isPrefixOf (c :: rest)
    · simp [hp] at h; omega
    · simp [hp, Option.map_eq_some'] at h
      obtain ⟨k, hk, hn⟩ := h
      subst hn
      match m with
      | 0 =>
        intro hcon
        exact hp (List.isPrefixOf_iff_prefix.mpr (by simpa using hcon))
      | m + 1 =>
        have := ih hk m (by omega)
        simpa using this

theorem findSub_none_not_pre {pat : Str} : ∀ {l : Str},
    findSub pat l = none → ∀ m, ¬ pat <+: l.drop m := by
  intro l
  induction l with
  | nil =>
    intro h m
    simp only [findSub] at h
    by_cases hp : pat.isPrefixOf ([] : Str)
    · simp [hp] at h
    · intro hcon
      rcases Nat.eq_zero_or_pos m with hm | hm
      · subst hm
        exact hp (List.isPrefixOf_iff_prefix.mpr (by simpa using hcon))
      · have : (List.drop m ([] : Str)) = [] := by simp
        rw [this] at hcon
        have : pat = [] := List.prefix_nil.mp hcon
        subst this
        exact hp (by simp)
  | cons c rest ih =>
    intro h m
    simp only [findSub] at h
    by_cases hp : pat.isPrefixOf (c :: rest)
    · simp [hp] at h
    · simp [hp] at h
      match m with
      | 0 =>
        intro hcon
        exact hp (List.isPrefixOf_iff_prefix.mpr (by simpa using hcon))
      | m + 1 =>
        have := ih h m
        simpa using this

theorem findSub_isSome_of_pre {pat : Str} : ∀ {l : Str} {m : Nat},
    pat <+: l.drop m → (findSub pat l).isSome = true := by
  intro l m h
  cases hf : findSub pat l with
  | none => exact absurd h (findSub_none_not_pre hf m)
  | some k => simp

theorem findSub_eq_some_of {pat l : Str} {n : Nat}
    (hpre : pat <+: l.drop n) (hmin : ∀ m, m < n → ¬ pat <+: l.drop m) :
    findSub pat l = some n := by
  have hs := findSub_isSome_of_pre hpre
  cases hf : findSub pat l with
  | none => rw [hf] at hs; simp at hs
  | some k =>
    have hk := findSub_some_pre hf
    rcases Nat.lt_trichotomy k n with h | h | h
    · exact absurd hk (hmin k h)
    · rw [h]
    · exact absurd hpre (findSub_some_min hf n h)

theorem containsSub_eq_false_iff {pat l : Str} :
    containsSub pat l = false ↔ ∀ m, ¬ pat <+: l.drop m := by
  constructor
  · intro h m
    unfold containsSub at h
    cases hf : findSub pat l with
    | none => exact findSub_none_not_pre hf m
    | some k => rw [hf] at h; simp at h
  · intro h
    unfold containsSub
    cases hf : findSub pat l with
    | none => simp
    | some k => exact absurd (findSub_some_pre hf) (h k)

theorem containsSub_eq_true_iff {pat l : Str} :
    containsSub pat l = true ↔ ∃ m, pat <+: l.drop m := by
  constructor
  · intro h
    unfold containsSub at h
    cases hf : findSub pat l with
    | none => rw [hf] at h; simp at h
    | some k => exact ⟨k, findSub_some_pre hf⟩
  · intro ⟨m, hm⟩
    exact findSub_isSome_of_pre hm

theorem prefix_drop_getElem? {pat l : Str} {m : Nat} (h : pat <+: l.drop m) :
    ∀ j, j < pat.length → l[m + j]? = pat[j]? := by
  intro j hj
  obtain ⟨t, ht⟩ := h
  have hd : l.drop m = pat ++ t := ht.symm
  have h1 : l[m + j]? = (l.drop m)[j]? := (List.getElem?_drop l m j).symm
  rw [h1, hd, List.getElem?_append_left hj]

theorem crossing_char {pat a b : Str} {m : Nat}
    (h : pat <+: (a ++ b).drop m) (h1 : m < a.length) (h2 : a.length < m + pat.length) :
    pat[a.length - m]? = b.head? := by
  have hj : a.length - m < pat.length := by omega
  have hc := prefix_drop_getElem? h (a.length - m) hj
  have hidx : m + (a.length - m) = a.length := by omega
  rw [hidx, List.getElem?_append_right (Nat.le_refl _), Nat.sub_self] at hc
  rw [← hc, List.head?_eq_getElem?]

theorem prefix_drop_of_take {pat l : Str} {m k : Nat} (h : pat <+: (l.take k).drop m) :
    pat <+: l.drop m :=
  h.trans ((List.take_prefix k l).drop m)

theorem prefix_drop_take_of {pat l : Str} {m k : Nat} (h : pat <+: l.drop m)
    (hk : m + pat.length ≤ k) : pat <+: (l.take k).drop m := by
  rw [List.drop_take]
  obtain ⟨t, ht⟩ := h
  refine ⟨t.take (k - m - pat.length), ?_⟩
  rw [← ht]
  have hlen : k - m = pat.length + (k - m - pat.length) := by
    have := ht ▸ (List.prefix_append pat t).length_le
    omega
  rw [hlen, List.take_append]
  congr 2
  omega

theorem prefix_window_iff {pat l₁ l₂ : Str} {m k : Nat}
    (heq : l₁.take k = l₂.take k) (hk : m + pat.length ≤ k) :
    (pat <+: l₁.drop m) ↔ (pat <+: l₂.drop m) := by
  constructor
  · intro h
    exact prefix_drop_of_take (heq ▸ prefix_drop_take_of h hk)
  · intro h
    exact prefix_drop_of_take (heq ▸ prefix_drop_take_of h hk)


theorem strLe_total : ∀ a b : Str, strLe a b = true ∨ strLe b a = true := by
  intro a
  induction a with
  | nil => intro b; left; rfl
  | cons c cs ih =>
    intro b
    cases b with
    | nil => right; rfl
    | cons d ds =>
      by_cases h1 : c.toNat < d.toNat
      · left; simp [strLe, h1]
      · by_cases h2 : d.toNat < c.toNat
        · right; simp [strLe, h2]
        · rcases ih ds with h | h
          · left; simp [strLe, h1, h2, h]
          · right; simp [strLe, h1, h2, h]

theorem strLe_trans : ∀ {a b c : Str}, strLe a b = true → strLe b c = true → strLe a c = true := by
  intro a
  induction a with
  | nil => intro b c _ _; rfl
  | cons x xs ih =>
    intro b c hab hbc
    cases b with
    | nil => simp [strLe] at hab
    | cons y ys =>
      cases c with
      | nil => simp [strLe] at hbc
      | cons z zs =>
        simp only [strLe] at hab hbc ⊢
        by_cases h1 : x.toNat < y.toNat
        · by_cases h2 : y.toNat < z.toNat
          · simp [show x.toNat < z.toNat by omega]
          · by_cases h4 : z.toNat < y.toNat
            · simp [h2, h4] at hbc
            · simp [show x.toNat < z.toNat by omega]
        · by_cases h3 : y.toNat < x.toNat
          · simp [h1, h3] at hab
          · by_cases h2 : y.toNat < z.toNat
            · simp [show x.toNat < z.toNat by omega]
            · by_cases h4 : z.toNat < y.toNat
              · simp [h2, h4] at hbc
              · have e1 : ¬ x.toNat < z.toNat := by omega
                have e2 : ¬ z.toNat < x.toNat := by omega
                simp only [e1, e2, if_false]
                simp only [h1, h3, if_false] at hab
                simp only [h2, h4, if_false] at hbc
                exact ih hab hbc

theorem insertStr_cons_le {x y : Str} {ys : List Str} (h : strLe x y = true) :
    insertStr x (y :: ys) = x :: y :: ys := by
  simp [insertStr, h]

theorem insertStr_cons_gt {x y : Str} {ys : List Str} (h : strLe x y = false) :
    insertStr x (y :: ys) = y :: insertStr x ys := by
  simp [insertStr, h]

theorem mem_insertStr {x a : Str} : ∀ {l : List Str},
    a ∈ insertStr x l ↔ a = x ∨ a ∈ l := by
  intro l
  induction l with
  | nil => simp [insertStr]
  | cons y ys ih =>
    cases h : strLe x y with
    | true =>
      rw [insertStr_cons_le h]
      simp only [List.mem_cons]
    | false =>
      rw [insertStr_cons_gt h]
      simp only [List.mem_cons, ih]
      tauto

theorem mem_sortStrs {a : Str} : ∀ {l : List Str}, a ∈ sortStrs l ↔ a ∈ l := by
  intro l
  induction l with
  | nil => simp [sortStrs]
  | cons x xs ih =>
    simp [sortStrs, mem_insertStr, ih]

theorem strSorted_insertStr {x : Str} : ∀ {l : List Str},
    strSorted l → strSorted (insertStr x l) := by
  intro l
  induction l with
  | nil => intro _; simp [insertStr, strSorted]
  | cons y ys ih =>
    intro hs
    rw [strSorted, List.pairwise_cons] at hs
    obtain ⟨hy, hys⟩ := hs
    cases h : strLe x y with
    | true =>
      rw [insertStr_cons_le h, strSorted, List.pairwise_cons]
      refine ⟨?_, ?_⟩
      · intro b hb
        rcases List.mem_cons.mp hb with hb | hb
        · subst hb; exact h
        · exact strLe_trans h (hy b hb)
      · rw [List.pairwise_cons]
        exact ⟨hy, hys⟩
    | false =>
      rw [insertStr_cons_gt h, strSorted, List.pairwise_cons]
      refine ⟨?_, ih hys⟩
      intro b hb
      rcases mem_insertStr.mp hb with hb | hb
      · rw [hb]
        rcases strLe_total x y with h' | h'
        · rw [h'] at h; cases h
        · exact h'
      · exact hy b hb

theorem strSorted_sortStrs : ∀ l : List Str, strSorted (sortStrs l) := by
  intro l
  induction l with
  | nil => simp [sortStrs, strSorted]
  | cons x xs ih => exact strSorted_insertStr ih

theorem nodup_insertStr {x : Str} : ∀ {l : List Str},
    l.Nodup → x ∉ l → (insertStr x l).Nodup := by
  intro l
  induction l with
  | nil => intro _ _; simp [insertStr]
  | cons y ys ih =>
    intro hnd hx
    rw [List.nodup_cons] at hnd
    obtain ⟨hy, hys⟩ := hnd
    have hxy : x ≠ y := fun he => hx (he ▸ List.mem_cons_self y ys)
    have hxys : x ∉ ys := fun hmem => hx (List.mem_cons_of_mem y hmem)
    cases h : strLe x y with
    | true =>
      rw [insertStr_cons_le h, List.nodup_cons, List.nodup_cons]
      refine ⟨by simpa using hx, hy, hys⟩
    | false =>
      rw [insertStr_cons_gt h, List.nodup_cons]
      refine ⟨?_, ih hys hxys⟩
      intro hmem
      rcases mem_insertStr.mp hmem with he | hmem'
      · exact hxy he.symm
      · exact hy hmem'

theorem nodup_sortStrs : ∀ {l : List Str}, l.Nodup → (sortStrs l).Nodup := by
  intro l
  induction l with
  | nil => intro _; simp [sortStrs]
  | cons x xs ih =>
    intro hnd
    rw [List.nodup_cons] at hnd
    exact nodup_insertStr (ih hnd.2) (fun hmem => hnd.1 (mem_sortStrs.mp hmem))

theorem dedupStrs_cons_mem {x : Str} {xs : List Str} (h : xs.contains x = true) :
    dedupStrs (x :: xs) = dedupStrs xs := by
  rw [dedupStrs, if_pos h]

theorem dedupStrs_cons_not_mem {x : Str} {xs : List Str} (h : xs.contains x = false) :
    dedupStrs (x :: xs) = x :: dedupStrs xs := by
  rw [dedupStrs, if_neg]
  rw [h]
  simp

theorem mem_dedupStrs {a : Str} : ∀ {l : List Str}, a ∈ dedupStrs l ↔ a ∈ l := by
  intro l
  induction l with
  | nil => simp [dedupStrs]
  | cons x xs ih =>
    cases h : xs.contains x with
    | true =>
      rw [dedupStrs_cons_mem h]
      have hx : x ∈ xs := List.elem_iff.mp h
      simp only [ih, List.mem_cons]
      constructor
      · exact Or.inr
      · rintro (rfl | hmem)
        · exact hx
        · exact hmem
    | false =>
      rw [dedupStrs_cons_not_mem h]
      simp only [List.mem_cons, ih]

theorem nodup_dedupStrs : ∀ {l : List Str}, (dedupStrs l).Nodup := by
  intro l
  induction l with
  | nil => simp [dedupStrs]
  | cons x xs ih =>
    cases h : xs.contains x with
    | true => rw [dedupStrs_cons_mem h]; exact ih
    | false =>
      rw [dedupStrs_cons_not_mem h, List.nodup_cons]
      refine ⟨fun hmem => ?_, ih⟩
      rw [mem_dedupStrs] at hmem
      have h2 : xs.contains x = true := List.elem_iff.mpr hmem
      rw [h2] at h
      cases h


/-! ## Properties of the shared document/section editor (claims C4, C6, C8). -/

theorem where_end_cases (header content : Str) (s : Nat)
    (hs : Doc.where_start header content = some s) :
    (findSub ('\n' :: ['[']) (content.drop (s + header.length)) = none ∧
      Doc.where_end header content = some content.length) ∨
    (∃ i, findSub ('\n' :: ['[']) (content.drop (s + header.length)) = some i ∧
      Doc.where_end header content = some (s + header.length + i)) := by
  cases hf : findSub ('\n' :: ['[']) (content.drop (s + header.length)) with
  | none =>
    refine Or.inl ⟨rfl, ?_⟩
    simp only [Doc.where_end, hs, hf]
  | some i =>
    refine Or.inr ⟨i, rfl, ?_⟩
    simp only [Doc.where_end, hs, hf]

/-- C8: when the header occurs in the document, the locator's start is the
index of its first occurrence, and the end is the index of the first
`"\n["` marker strictly after the header text, or the document length when
no such marker exists; when the header is absent the start lookup fails. -/
theorem C8_section_locator (header content : Str) :
    (containsSub header content = false → Doc.where_start header content = none) ∧
    (∀ s, Doc.where_start header content = some s →
      (header <+: content.drop s ∧ (∀ m, m < s → ¬ header <+: content.drop m)) ∧
      ((∃ e, Doc.where_end header content = some e ∧
        ((e = content.length ∧
            ∀ m, s + header.length ≤ m → ¬ ('\n' :: ['[']) <+: content.drop m) ∨
         (('\n' :: ['[']) <+: content.drop e ∧ s + header.length ≤ e ∧
            ∀ m, s + header.length ≤ m → m < e →
              ¬ ('\n' :: ['[']) <+: content.drop m))))) := by
  constructor
  · intro h
    unfold Doc.where_start
    cases hf : findSub header content with
    | none => rfl
    | some k =>
      have := findSub_some_pre hf
      rw [containsSub_eq_false_iff] at h
      exact absurd this (h k)
  · intro s hs
    refine ⟨⟨findSub_some_pre hs, findSub_some_min hs⟩, ?_⟩
    rcases where_end_cases header content s hs with ⟨hf, he⟩ | ⟨i, hf, he⟩
    · refine ⟨content.length, he, Or.inl ⟨rfl, ?_⟩⟩
      intro m hm hcon
      have hdrop : content.drop m = (content.drop (s + header.length)).drop (m - (s + header.length)) := by
        rw [List.drop_drop]
        congr 1
        omega
      rw [hdrop] at hcon
      exact findSub_none_not_pre hf _ hcon
    · refine ⟨s + header.length + i, he, Or.inr ⟨?_, by omega, ?_⟩⟩
      · have := findSub_some_pre hf
        rwa [List.drop_drop] at this
      · intro m hm1 hm2 hcon
        have hdrop : content.drop m = (content.drop (s + header.length)).drop (m - (s + header.length)) := by
          rw [List.drop_drop]
          congr 1
          omega
        rw [hdrop] at hcon
        exact findSub_some_min hf (m - (s + header.length)) (by omega) hcon

/-- Witness for C8 at a concrete document: the start returned by the
locator is a real first occurrence of the header. -/
theorem C8_section_locator_witness :
    PyrightToml.HEADER <+: ("x\n[tool.pyright]\nfoo\n\n[next]\n".toList).drop 2 ∧
    (∀ m, m < 2 → ¬ PyrightToml.HEADER <+: ("x\n[tool.pyright]\nfoo\n\n[next]\n".toList).drop m) :=
  ((C8_section_locator PyrightToml.HEADER "x\n[tool.pyright]\nfoo\n\n[next]\n".toList).2 2 (by decide)).1

/-! ## Boundary lemmas for substring search over concatenations. -/

theorem drop_append_ge {a b : Str} {m : Nat} (h : a.length ≤ m) :
    (a ++ b).drop m = b.drop (m - a.length) := by
  rw [List.drop_append_eq_append_drop, List.drop_eq_nil_of_le h, List.nil_append]

theorem cons_prefix_drop {c : Char} {p l : Str} {m : Nat}
    (h : (c :: p) <+: l.drop m) : p <+: l.drop (m + 1) := by
  obtain ⟨t, ht⟩ := h
  have h1 : l.drop (m + 1) = (l.drop m).drop 1 := by
    rw [List.drop_drop]
  rw [h1, ← ht]
  exact ⟨t, rfl⟩

theorem containsSub_false_of_pre {pat a b : Str} (hab : a <+: b)
    (h : containsSub pat b = false) : containsSub pat a = false := by
  rw [containsSub_eq_false_iff] at h ⊢
  intro m hcon
  exact h m (hcon.trans (hab.drop m))

theorem window_take_eq {a b : Str} : (a ++ b).take a.length = a.take a.length := by
  rw [List.take_left, List.take_length]

theorem not_prefix_left_of_none {pat a b : Str} {m : Nat}
    (ha : findSub pat a = none) (h1 : m + pat.length ≤ a.length) :
    ¬ pat <+: (a ++ b).drop m := by
  intro hcon
  have := (prefix_window_iff window_take_eq h1).mp hcon
  exact findSub_none_not_pre ha m this

theorem findSub_append_boundary {pat a b : Str} {k : Nat}
    (ha : findSub pat a = none)
    (hb : findSub pat b = some k)
    (hcross : ∀ j, j < pat.length → 0 < j → pat[j]? ≠ b.head?) :
    findSub pat (a ++ b) = some (a.length + k) := by
  apply findSub_eq_some_of
  · rw [drop_append_ge (by omega), Nat.add_sub_cancel_left]
    exact findSub_some_pre hb
  · intro m hm hcon
    rcases Nat.lt_or_ge m a.length with hma | hma
    · rcases le_or_lt (m + pat.length) a.length with hin | hin
      · exact not_prefix_left_of_none ha hin hcon
      · have hpat : 0 < pat.length := by omega
        have := crossing_char hcon hma hin
        exact hcross (a.length - m) (by omega) (by omega) this
    · rw [drop_append_ge hma] at hcon
      exact findSub_some_min hb (m - a.length) (by omega) hcon

theorem findSub_append_none {pat a b : Str}
    (ha : findSub pat a = none) (hb : findSub pat b = none)
    (hcross : ∀ j, j < pat.length → 0 < j → pat[j]? ≠ b.head?) :
    findSub pat (a ++ b) = none := by
  cases hf : findSub pat (a ++ b) with
  | none => rfl
  | some m =>
    exfalso
    have hcon := findSub_some_pre hf
    rcases Nat.lt_or_ge m a.length with hma | hma
    · rcases le_or_lt (m + pat.length) a.length with hin | hin
      · exact not_prefix_left_of_none ha hin hcon
      · have := crossing_char hcon hma hin
        exact hcross (a.length - m) (by omega) (by omega) this
    · rw [drop_append_ge hma] at hcon
      exact findSub_none_not_pre hb (m - a.length) hcon

theorem findSub_toNone_of_contains_false {pat l : Str}
    (h : containsSub pat l = false) : findSub pat l = none := by
  unfold containsSub at h
  cases hf : findSub pat l with
  | none => rfl
  | some k => rw [hf] at h; simp at h

theorem contains_false_of_findSub_none {pat l : Str}
    (h : findSub pat l = none) : containsSub pat l = false := by
  unfold containsSub
  rw [h]
  rfl

/-! ## Section-level properties of the exclusion codec (claims C7, C5, C3, C2). -/

open PyrightToml

theorem findSub_zero_of_pre {pat l : Str} (h : pat <+: l) : findSub pat l = some 0 :=
  findSub_eq_some_of (by simpa using h) (fun m hm => absurd hm (by omega))

theorem findSub_cons_none_of_not_mem {c : Char} {p l : Str} (h : c ∉ l) :
    findSub (c :: p) l = none := by
  cases hf : findSub (c :: p) l with
  | none => rfl
  | some m =>
    exfalso
    have hpre := findSub_some_pre hf
    have := prefix_drop_getElem? hpre 0 (by simp)
    simp only [Nat.add_zero] at this
    have hm : l[m]? = some c := by simpa using this
    have : c ∈ l := by
      have hlt : m < l.length := by
        by_contra hge
        rw [List.getElem?_eq_none (by omega)] at hm
        cases hm
      have : l[m] = c := by
        have := List.getElem?_eq_getElem hlt
        rw [this] at hm
        simpa using hm
      exact this ▸ List.getElem_mem hlt
    exact h this

theorem findSub_nl_none_of_contains_false {key l : Str}
    (h : containsSub key l = false) : findSub ('\n' :: key) l = none := by
  cases hf : findSub ('\n' :: key) l with
  | none => rfl
  | some m =>
    exfalso
    have := cons_prefix_drop (findSub_some_pre hf)
    rw [containsSub_eq_false_iff] at h
    exact h (m + 1) this

theorem eq_dropLast_append_getLast? {l : Str} {c : Char} (h : l.getLast? = some c) :
    l = l.dropLast ++ [c] := by
  cases l with
  | nil => cases h
  | cons x xs =>
    have hne : x :: xs ≠ [] := by simp
    have h1 := List.dropLast_concat_getLast hne
    have h2 : (x :: xs).getLast hne = c := by
      rw [List.getLast?_eq_getLast _ hne] at h
      simpa using h
    rw [h2] at h1
    exact h1.symm

theorem getLast?_append_singleton {l : Str} {c : Char} : (l ++ [c]).getLast? = some c := by
  simp

theorem ensureNl_getLast {s : Str} : (ensureNl s).getLast? = some '\n' := by
  unfold ensureNl
  by_cases h : s.getLast? = some '\n'
  · rw [if_pos h]; exact h
  · rw [if_neg h]; exact getLast?_append_singleton

theorem contains_false_ensureNl {s : Str}
    (h : containsSub EXCLUDE s = false) : containsSub EXCLUDE (ensureNl s) = false := by
  unfold ensureNl
  by_cases hl : s.getLast? = some '\n'
  · rw [if_pos hl]; exact h
  · rw [if_neg hl]
    apply contains_false_of_findSub_none
    apply findSub_append_none (findSub_toNone_of_contains_false h)
    · decide
    · decide

theorem Pyright_postInit_clean {content : Str}
    (h : containsSub EXCLUDE content = false) :
    Pyright.postInit content = content ++ '\n' :: (EXCLUDE ++ " = []".toList) := by
  unfold Pyright.postInit
  rw [h]
  simp

theorem Pyright_postInit_present {content : Str}
    (h : containsSub EXCLUDE content = true) :
    Pyright.postInit content = content := by
  unfold Pyright.postInit
  rw [h]
  simp

theorem Pyright_clear_clean {content : Str}
    (h : containsSub EXCLUDE content = false) :
    Pyright.remove_exclusions (Pyright.postInit content) = some content := by
  rw [Pyright_postInit_clean h]
  have hstart : Pyright.start_exclude (content ++ '\n' :: (EXCLUDE ++ " = []".toList))
      = some content.length := by
    unfold Pyright.start_exclude
    have hb : findSub ('\n' :: EXCLUDE) ('\n' :: (EXCLUDE ++ " = []".toList)) = some 0 := by
      decide
    have := findSub_append_boundary (findSub_nl_none_of_contains_false h) hb (by decide)
    simpa using this
  have hend : Pyright.end_exclude (content ++ '\n' :: (EXCLUDE ++ " = []".toList))
      = some (content.length + 12 + 1) := by
    have hdrop : (content ++ '\n' :: (EXCLUDE ++ " = []".toList)).drop content.length
        = '\n' :: (EXCLUDE ++ " = []".toList) := List.drop_left content _
    have hf : findSub [']'] ('\n' :: (EXCLUDE ++ " = []".toList)) = some 12 := by decide
    simp only [Pyright.end_exclude, hstart, hdrop, hf]
  have ht : (content ++ '\n' :: (EXCLUDE ++ " = []".toList)).take content.length = content :=
    List.take_left content _
  have hd : (content ++ '\n' :: (EXCLUDE ++ " = []".toList)).drop (content.length + 12 + 1)
      = [] := by
    rw [drop_append_ge (by omega)]
    have harith : content.length + 12 + 1 - content.length = 13 := by omega
    rw [harith]
    decide
  simp only [Pyright.remove_exclusions, hstart, hend, ht, hd, List.append_nil]

/-- C7 (amended): for every section text in which the substring `exclude`
does not occur at all, constructing the wrapper (whose constructor then
appends the key) and calling `remove_exclusions` never fails with
substring-not-found: it succeeds and returns the original section text. -/
theorem C7_ensure_remove_amended (content : Str)
    (h : containsSub PyrightToml.EXCLUDE content = false) :
    PyrightToml.Pyright.remove_exclusions (PyrightToml.Pyright.postInit content)
      = some content :=
  Pyright_clear_clean h

/-- Witness for amended C7 on a concrete exclude-free section text. -/
theorem C7_ensure_remove_amended_witness :
    PyrightToml.Pyright.remove_exclusions
        (PyrightToml.Pyright.postInit "[tool.pyright]\nstrict = true\n".toList)
      = some "[tool.pyright]\nstrict = true\n".toList :=
  C7_ensure_remove_amended "[tool.pyright]\nstrict = true\n".toList (by decide)

/-- C7 counterexample: the claim quantifies over every section text, but a
text containing `exclude` with no preceding newline defeats the ensure
step (the constructor appends nothing since the substring is present), and
`remove_exclusions` then fails at the `"\nexclude"` lookup; a text with
`"\nexclude"` but no closing bracket fails at the `"]"` lookup.  Both
supposedly unreachable error branches are reachable. -/
theorem C7_counterexample :
    PyrightToml.Pyright.remove_exclusions
      (PyrightToml.Pyright.postInit "exclude".toList) = none ∧
    PyrightToml.Pyright.start_exclude
      (PyrightToml.Pyright.postInit "exclude".toList) = none ∧
    PyrightToml.Pyright.remove_exclusions
      (PyrightToml.Pyright.postInit "\nexclude = [".toList) = none ∧
    PyrightToml.Pyright.end_exclude
      (PyrightToml.Pyright.postInit "\nexclude = [".toList) = none := by
  refine ⟨by decide, by decide, by decide, by decide⟩

theorem findSub_cons_not_pre {pat l : Str} {c : Char} (h : ¬ pat <+: (c :: l)) :
    findSub pat (c :: l) = (findSub pat l).map (· + 1) := by
  rw [findSub, if_neg]
  intro hcon
  exact h (List.isPrefixOf_iff_prefix.mp hcon)

theorem align_head {f : Str} {rest : List Str} : (align (f :: rest)).head? = some ' ' := by
  cases rest <;> rfl

theorem rb_not_mem_align : ∀ {files : List Str},
    (∀ f ∈ files, ']' ∉ f) → ']' ∉ align files := by
  intro files
  induction files with
  | nil => intro _; simp [align]
  | cons f rest ih =>
    intro h
    have hf : ']' ∉ f := h f (List.mem_cons_self f rest)
    have d1 : ']' ∉ "    \"".toList := by decide
    have d2 : ']' ∉ "\",".toList := by decide
    have d3 : ']' ≠ '\n' := by decide
    cases rest with
    | nil =>
      intro hmem
      simp only [align, List.mem_append] at hmem
      tauto
    | cons g rest2 =>
      have ih2 := ih (fun x hx => h x (List.mem_cons_of_mem f hx))
      intro hmem
      simp only [align, List.mem_append, List.mem_cons] at hmem
      tauto

theorem nl_not_mem_line {f : Str} (hf : '\n' ∉ f) :
    '\n' ∉ ("    \"".toList ++ f ++ "\",".toList) := by
  have d1 : '\n' ∉ "    \"".toList := by decide
  have d2 : '\n' ∉ "\",".toList := by decide
  intro hmem
  simp only [List.mem_append] at hmem
  tauto

theorem nlLb_none_align : ∀ {files : List Str},
    (∀ f ∈ files, '\n' ∉ f) → findSub ('\n' :: ['[']) (align files) = none := by
  intro files
  induction files with
  | nil => intro _; decide
  | cons f rest ih =>
    intro h
    have hf : '\n' ∉ f := h f (List.mem_cons_self f rest)
    cases rest with
    | nil => exact findSub_cons_none_of_not_mem (nl_not_mem_line hf)
    | cons g rest2 =>
      have ih2 := ih (fun x hx => h x (List.mem_cons_of_mem f hx))
      have heq : align (f :: g :: rest2)
          = ("    \"".toList ++ f ++ "\",".toList) ++ ('\n' :: align (g :: rest2)) := by
        simp [align]
      rw [heq]
      apply findSub_append_none (findSub_cons_none_of_not_mem (nl_not_mem_line hf))
      · have hpre : ¬ ('\n' :: ['[']) <+: ('\n' :: align (g :: rest2)) := by
          rw [List.cons_prefix_cons]
          rintro ⟨-, hcon⟩
          obtain ⟨tl, htl⟩ := hcon
          have : (align (g :: rest2)).head? = some '[' := by
            rw [← htl]
            rfl
          rw [align_head] at this
          cases this
        rw [findSub_cons_not_pre hpre, ih2]
        rfl
      · intro j hj hpos
        have hlen : (('\n' :: ['[']) : Str).length = 2 := rfl
        rw [hlen] at hj
        have hj1 : j = 1 := by omega
        subst hj1
        simp

theorem Pyright_write_clean {content : Str}
    (h : containsSub EXCLUDE content = false) {files : List Str} (hne : files ≠ []) :
    Pyright.add_exclusions (Pyright.postInit content) files
      = some (ensureNl content ++ exclBlock files) := by
  simp only [Pyright.add_exclusions, Pyright_clear_clean h]
  rw [if_neg hne]
  unfold ensureNl exclBlock
  by_cases hl : content.getLast? = some '\n'
  · rw [if_pos hl, if_pos hl]
  · rw [if_neg hl, if_neg hl]
    simp [List.append_assoc]

theorem Pyright_write_nil {content : Str}
    (h : containsSub EXCLUDE content = false) :
    Pyright.add_exclusions (Pyright.postInit content) [] = some content := by
  simp only [Pyright.add_exclusions, Pyright_clear_clean h]
  simp

theorem exclude_prefix_exclBlock {files : List Str} : EXCLUDE <+: exclBlock files := by
  unfold exclBlock
  exact ((List.prefix_append EXCLUDE _).trans (List.prefix_append _ _)).trans
    (List.prefix_append _ _)

theorem contains_true_of_append_exclBlock {u : Str} {files : List Str} :
    containsSub EXCLUDE (u ++ exclBlock files) = true := by
  rw [containsSub_eq_true_iff]
  refine ⟨u.length, ?_⟩
  rw [List.drop_left]
  exact exclude_prefix_exclBlock

theorem nlE_no_inner_nl :
    ∀ j, j < ('\n' :: EXCLUDE).length → 0 < j → ('\n' :: EXCLUDE)[j]? ≠ some '\n' := by
  decide

theorem Pyright_start_written {t : Str} {files : List Str}
    (ht : containsSub EXCLUDE t = false) :
    Pyright.start_exclude (t ++ '\n' :: exclBlock files) = some t.length := by
  unfold Pyright.start_exclude
  have hb : findSub ('\n' :: EXCLUDE) ('\n' :: exclBlock files) = some 0 := by
    apply findSub_zero_of_pre
    rw [List.cons_prefix_cons]
    exact ⟨rfl, exclude_prefix_exclBlock⟩
  have := findSub_append_boundary (findSub_nl_none_of_contains_false ht) hb ?_
  · simpa using this
  · intro j hj hpos
    have hhead : ('\n' :: exclBlock files).head? = some '\n' := rfl
    rw [hhead]
    exact nlE_no_inner_nl j hj hpos

theorem nlblk_split {files : List Str} :
    '\n' :: exclBlock files
      = ('\n' :: (EXCLUDE ++ " = [\n".toList ++ align files ++ ['\n'])) ++ (']' :: ['\n']) := by
  unfold exclBlock
  simp

theorem rb_not_mem_blkpre {files : List Str} (hrb : ∀ f ∈ files, ']' ∉ f) :
    ']' ∉ ('\n' :: (EXCLUDE ++ " = [\n".toList ++ align files ++ ['\n'])) := by
  have d0 : ']' ≠ '\n' := by decide
  have d1 : ']' ∉ EXCLUDE := by decide
  have d2 : ']' ∉ " = [\n".toList := by decide
  have d3 := rb_not_mem_align hrb
  intro hmem
  simp only [List.mem_cons, List.mem_append] at hmem
  tauto

theorem Pyright_end_written {t : Str} {files : List Str}
    (ht : containsSub EXCLUDE t = false) (hrb : ∀ f ∈ files, ']' ∉ f) :
    Pyright.end_exclude (t ++ '\n' :: exclBlock files)
      = some (t.length + ('\n' :: (EXCLUDE ++ " = [\n".toList ++ align files ++ ['\n'])).length + 1) := by
  have hdrop : (t ++ '\n' :: exclBlock files).drop t.length = '\n' :: exclBlock files :=
    List.drop_left t _
  have hf : findSub [']'] ('\n' :: exclBlock files)
      = some ('\n' :: (EXCLUDE ++ " = [\n".toList ++ align files ++ ['\n'])).length := by
    rw [nlblk_split]
    have hb : findSub [']'] (']' :: ['\n']) = some 0 := by decide
    have := findSub_append_boundary
      (findSub_cons_none_of_not_mem (rb_not_mem_blkpre hrb)) hb ?_
    · simpa using this
    · intro j hj hpos
      have : ([']'] : Str).length = 1 := rfl
      omega
  simp only [Pyright.end_exclude, Pyright.start_exclude,
    show findSub ('\n' :: EXCLUDE) (t ++ '\n' :: exclBlock files) = some t.length from
      Pyright_start_written ht,
    hdrop, hf]

theorem Pyright_clear_written {t : Str} {files : List Str}
    (ht : containsSub EXCLUDE t = false) (hrb : ∀ f ∈ files, ']' ∉ f) :
    Pyright.remove_exclusions (t ++ '\n' :: exclBlock files) = some (t ++ ['\n']) := by
  have hstart := @Pyright_start_written t files ht
  have hend := @Pyright_end_written t files ht hrb
  have hsplit : t ++ '\n' :: exclBlock files
      = (t ++ '\n' :: (EXCLUDE ++ " = [\n".toList ++ align files ++ ['\n'])) ++ (']' :: ['\n']) := by
    rw [List.append_assoc]
    congr 1
    exact nlblk_split
  have htake : (t ++ '\n' :: exclBlock files).take t.length = t := List.take_left t _
  have hdrop : (t ++ '\n' :: exclBlock files).drop
      (t.length + ('\n' :: (EXCLUDE ++ " = [\n".toList ++ align files ++ ['\n'])).length + 1)
      = ['\n'] := by
    rw [hsplit, drop_append_ge (by simp)]
    have : t.length + ('\n' :: (EXCLUDE ++ " = [\n".toList ++ align files ++ ['\n'])).length + 1
        - (t ++ '\n' :: (EXCLUDE ++ " = [\n".toList ++ align files ++ ['\n'])).length = 1 := by
      simp
    rw [this]
    rfl
  simp only [Pyright.remove_exclusions, Pyright.start_exclude] at *
  simp only [hstart, hend, htake, hdrop]

/-! ## Document-level decomposition lemmas. -/

theorem Doc_postInit_present {header content : Str} (h : containsSub header content = true) :
    Doc.postInit header content = content := by
  unfold Doc.postInit
  rw [h]
  simp

theorem take_preH {header pre sec suf : Str} (hhead : header <+: sec) :
    ((pre ++ sec) ++ suf).take (pre.length + header.length) = pre ++ header := by
  obtain ⟨r, hr⟩ := hhead
  rw [← hr]
  have hre : (pre ++ (header ++ r)) ++ suf = (pre ++ header) ++ (r ++ suf) := by simp
  rw [hre, List.take_left' (by simp)]

theorem findSub_header_decomp {header pre sec suf : Str}
    (hmin : ∀ m, m < pre.length → ¬ header <+: ((pre ++ sec) ++ suf).drop m)
    (hhead : header <+: sec) :
    findSub header ((pre ++ sec) ++ suf) = some pre.length := by
  apply findSub_eq_some_of
  · have hre : (pre ++ sec) ++ suf = pre ++ (sec ++ suf) := by simp
    rw [hre, List.drop_left]
    exact hhead.trans (List.prefix_append sec suf)
  · exact hmin

theorem start_transfer {header pre sec sec' suf suf' : Str}
    (hstart : findSub header ((pre ++ sec) ++ suf) = some pre.length)
    (hhead : header <+: sec) (hhead' : header <+: sec') :
    findSub header ((pre ++ sec') ++ suf') = some pre.length := by
  apply findSub_header_decomp ?_ hhead'
  intro m hm hcon
  have heq : ((pre ++ sec') ++ suf').take (pre.length + header.length)
      = ((pre ++ sec) ++ suf).take (pre.length + header.length) := by
    rw [take_preH hhead', take_preH hhead]
  have := (prefix_window_iff heq (by omega)).mp hcon
  exact findSub_some_min hstart m hm this

theorem Doc_extract_decomp {header pre sec suf : Str}
    (hstart : findSub header ((pre ++ sec) ++ suf) = some pre.length)
    (hhead : header <+: sec)
    (hnolb : findSub ('\n' :: ['[']) (sec.drop header.length) = none)
    (hsuf : suf = [] ∨ ('\n' :: ['[']) <+: suf) :
    Doc.where_start header ((pre ++ sec) ++ suf) = some pre.length ∧
    Doc.where_end header ((pre ++ sec) ++ suf) = some (pre.length + sec.length) ∧
    Doc.extract header ((pre ++ sec) ++ suf) = some sec ∧
    (∀ new, header <+: new →
      Doc.replace header ((pre ++ sec) ++ suf) new = some ((pre ++ new) ++ suf)) := by
  have hws : Doc.where_start header ((pre ++ sec) ++ suf) = some pre.length := hstart
  obtain ⟨srest, hsec⟩ := hhead
  have hlen : sec.length = header.length + srest.length := by
    rw [← hsec]; simp
  have hdrop : ((pre ++ sec) ++ suf).drop (pre.length + header.length)
      = srest ++ suf := by
    have hre : (pre ++ sec) ++ suf = (pre ++ header) ++ (srest ++ suf) := by
      rw [← hsec]; simp
    rw [hre, List.drop_left' (by simp)]
  have hsrest : sec.drop header.length = srest := by
    rw [← hsec, List.drop_left]
  have hwe : Doc.where_end header ((pre ++ sec) ++ suf) = some (pre.length + sec.length) := by
    rcases hsuf with rfl | hpre
    · have hnone : findSub ('\n' :: ['[']) (((pre ++ sec) ++ [] : Str).drop (pre.length + header.length)) = none := by
        rw [hdrop]
        rw [hsrest] at hnolb
        simpa using hnolb
      have hlentot : ((pre ++ sec) ++ ([] : Str)).length = pre.length + sec.length := by simp
      simp only [Doc.where_end, Doc.where_start, hstart, hnone, hlentot]
    · obtain ⟨t2, ht2⟩ := hpre
      have hhd : suf.head? = some '\n' := by rw [← ht2]; rfl
      have hfs : findSub ('\n' :: ['[']) (((pre ++ sec) ++ suf).drop (pre.length + header.length))
          = some srest.length := by
        rw [hdrop]
        rw [hsrest] at hnolb
        have := findSub_append_boundary hnolb
          (findSub_zero_of_pre ⟨t2, ht2⟩) ?_
        · simpa using this
        · intro j hj hpos
          have hl2 : (('\n' :: ['[']) : Str).length = 2 := rfl
          rw [hl2] at hj
          have : j = 1 := by omega
          subst this
          rw [hhd]
          decide
      simp only [Doc.where_end, Doc.where_start, hstart, hfs]
      have : pre.length + header.length + srest.length = pre.length + sec.length := by omega
      rw [this]
  refine ⟨hws, hwe, ?_, ?_⟩
  · have htake : ((pre ++ sec) ++ suf).take (pre.length + sec.length) = pre ++ sec :=
      List.take_left' (by simp)
    have hdrop2 : (pre ++ sec).drop pre.length = sec := List.drop_left pre sec
    simp only [Doc.extract, Doc.where_start, hstart, hwe]
    rw [htake, hdrop2]
  · intro new hnew
    have htake : ((pre ++ sec) ++ suf).take pre.length = pre := by
      have hre : (pre ++ sec) ++ suf = pre ++ (sec ++ suf) := by simp
      rw [hre, List.take_left]
    have hdropE : ((pre ++ sec) ++ suf).drop (pre.length + sec.length) = suf :=
      List.drop_left' (by simp)
    have hcontains : containsSub header ((pre ++ new) ++ suf) = true := by
      rw [containsSub_eq_true_iff]
      refine ⟨pre.length, ?_⟩
      have hre : (pre ++ new) ++ suf = pre ++ (new ++ suf) := by simp
      rw [hre, List.drop_left]
      exact hnew.trans (List.prefix_append new suf)
    simp only [Doc.replace, Doc.where_start, hstart, hwe]
    rw [htake, hdropE, Doc_postInit_present hcontains]

theorem prefix_ensureNl {s : Str} : s <+: ensureNl s := by
  unfold ensureNl
  by_cases h : s.getLast? = some '\n'
  · rw [if_pos h]
  · rw [if_neg h]; exact List.prefix_append s _

theorem ensureNl_idem {s : Str} : ensureNl (ensureNl s) = ensureNl s := by
  conv_lhs => rw [ensureNl]
  rw [if_pos ensureNl_getLast]

theorem header_prefix_ensureNl {header s : Str} (h : header <+: s) : header <+: ensureNl s :=
  h.trans prefix_ensureNl

theorem nolb_drop_ensureNl {header sec : Str} (hhead : header <+: sec)
    (hnolb : findSub ('\n' :: ['[']) (sec.drop header.length) = none) :
    findSub ('\n' :: ['[']) ((ensureNl sec).drop header.length) = none := by
  unfold ensureNl
  by_cases h : sec.getLast? = some '\n'
  · rw [if_pos h]; exact hnolb
  · rw [if_neg h]
    rw [List.drop_append_of_le_length hhead.length_le]
    apply findSub_append_none hnolb (by decide)
    intro j hj hpos
    have hl2 : (('\n' :: ['[']) : Str).length = 2 := rfl
    rw [hl2] at hj
    have : j = 1 := by omega
    subst this
    decide

theorem exclBlock_head {files : List Str} : (exclBlock files).head? = some 'e' := rfl

theorem nlLb_none_exclBlock {files : List Str} (hnl : ∀ f ∈ files, '\n' ∉ f) :
    findSub ('\n' :: ['[']) (exclBlock files) = none := by
  unfold exclBlock
  apply findSub_append_none
  · apply findSub_append_none
    · decide
    · exact nlLb_none_align hnl
    · intro j hj hpos
      have hl2 : (('\n' :: ['[']) : Str).length = 2 := rfl
      rw [hl2] at hj
      have : j = 1 := by omega
      subst this
      cases files with
      | nil => simp [align]
      | cons f rest =>
        rw [align_head]
        decide
  · decide
  · intro j hj hpos
    have hl2 : (('\n' :: ['[']) : Str).length = 2 := rfl
    rw [hl2] at hj
    have : j = 1 := by omega
    subst this
    decide

theorem contains_header_of_start {header doc : Str} {n : Nat}
    (h : findSub header doc = some n) : containsSub header doc = true := by
  unfold containsSub
  rw [h]
  rfl

theorem remove_on_clean {pre sec suf : Str}
    (hstart : findSub HEADER ((pre ++ sec) ++ suf) = some pre.length)
    (hhead : HEADER <+: sec)
    (hclean : containsSub EXCLUDE sec = false)
    (hnolb : findSub ('\n' :: ['[']) (sec.drop HEADER.length) = none)
    (hsuf : suf = [] ∨ ('\n' :: ['[']) <+: suf) :
    PyrightToml.remove_exclusions ((pre ++ sec) ++ suf) = some ((pre ++ sec) ++ suf) := by
  obtain ⟨hws, hwe, hex, hrep⟩ := Doc_extract_decomp hstart hhead hnolb hsuf
  have hpi : Doc.postInit HEADER ((pre ++ sec) ++ suf) = (pre ++ sec) ++ suf :=
    Doc_postInit_present (contains_header_of_start hstart)
  simp only [PyrightToml.remove_exclusions, Pyproject.postInit, hpi, Pyproject.extract, hex,
    Pyright_clear_clean hclean, Pyproject.replace, hrep sec hhead]

theorem set_on_clean {pre sec suf : Str} {files : List Str}
    (hstart : findSub HEADER ((pre ++ sec) ++ suf) = some pre.length)
    (hhead : HEADER <+: sec)
    (hclean : containsSub EXCLUDE sec = false)
    (hnolb : findSub ('\n' :: ['[']) (sec.drop HEADER.length) = none)
    (hsuf : suf = [] ∨ ('\n' :: ['[']) <+: suf)
    (hne : files ≠ []) :
    PyrightToml.set_exclusions ((pre ++ sec) ++ suf) files
      = some ((pre ++ (ensureNl sec ++ exclBlock files)) ++ suf) := by
  obtain ⟨hws, hwe, hex, hrep⟩ := Doc_extract_decomp hstart hhead hnolb hsuf
  have hpi : Doc.postInit HEADER ((pre ++ sec) ++ suf) = (pre ++ sec) ++ suf :=
    Doc_postInit_present (contains_header_of_start hstart)
  simp only [PyrightToml.set_exclusions, Pyproject.postInit, hpi, Pyproject.extract, hex,
    Pyright_write_clean hclean hne, Pyproject.replace,
    hrep (ensureNl sec ++ exclBlock files)
      ((header_prefix_ensureNl hhead).trans (List.prefix_append _ _))]

theorem set_on_clean_nil {pre sec suf : Str}
    (hstart : findSub HEADER ((pre ++ sec) ++ suf) = some pre.length)
    (hhead : HEADER <+: sec)
    (hclean : containsSub EXCLUDE sec = false)
    (hnolb : findSub ('\n' :: ['[']) (sec.drop HEADER.length) = none)
    (hsuf : suf = [] ∨ ('\n' :: ['[']) <+: suf) :
    PyrightToml.set_exclusions ((pre ++ sec) ++ suf) [] = some ((pre ++ sec) ++ suf) := by
  obtain ⟨hws, hwe, hex, hrep⟩ := Doc_extract_decomp hstart hhead hnolb hsuf
  have hpi : Doc.postInit HEADER ((pre ++ sec) ++ suf) = (pre ++ sec) ++ suf :=
    Doc_postInit_present (contains_header_of_start hstart)
  simp only [PyrightToml.set_exclusions, Pyproject.postInit, hpi, Pyproject.extract, hex,
    Pyright_write_nil hclean, Pyproject.replace, hrep sec hhead]

theorem remove_on_written {pre sec suf : Str} {files : List Str}
    (hstart : findSub HEADER ((pre ++ sec) ++ suf) = some pre.length)
    (hhead : HEADER <+: sec)
    (hclean : containsSub EXCLUDE sec = false)
    (hnolb : findSub ('\n' :: ['[']) (sec.drop HEADER.length) = none)
    (hsuf : suf = [] ∨ ('\n' :: ['[']) <+: suf)
    (hnl : ∀ f ∈ files, '\n' ∉ f)
    (hrb : ∀ f ∈ files, ']' ∉ f) :
    PyrightToml.remove_exclusions ((pre ++ (ensureNl sec ++ exclBlock files)) ++ suf)
      = some ((pre ++ ensureNl sec) ++ suf) := by
  have hhead2 : HEADER <+: ensureNl sec ++ exclBlock files :=
    (header_prefix_ensureNl hhead).trans (List.prefix_append _ _)
  have hstart2 : findSub HEADER ((pre ++ (ensureNl sec ++ exclBlock files)) ++ suf)
      = some pre.length := start_transfer hstart hhead hhead2
  have hnolb2 : findSub ('\n' :: ['[']) ((ensureNl sec ++ exclBlock files).drop HEADER.length)
      = none := by
    rw [List.drop_append_of_le_length (le_trans hhead.length_le prefix_ensureNl.length_le)]
    apply findSub_append_none (nolb_drop_ensureNl hhead hnolb) (nlLb_none_exclBlock hnl)
    intro j hj hpos
    have hl2 : (('\n' :: ['[']) : Str).length = 2 := rfl
    rw [hl2] at hj
    have : j = 1 := by omega
    subst this
    rw [exclBlock_head]
    decide
  obtain ⟨hws, hwe, hex, hrep⟩ := Doc_extract_decomp hstart2 hhead2 hnolb2 hsuf
  have hpi : Doc.postInit HEADER ((pre ++ (ensureNl sec ++ exclBlock files)) ++ suf)
      = (pre ++ (ensureNl sec ++ exclBlock files)) ++ suf :=
    Doc_postInit_present (contains_header_of_start hstart2)
  have ht : ensureNl sec = (ensureNl sec).dropLast ++ ['\n'] :=
    eq_dropLast_append_getLast? ensureNl_getLast
  have htclean : containsSub EXCLUDE ((ensureNl sec).dropLast) = false :=
    containsSub_false_of_pre (List.dropLast_prefix _) (contains_false_ensureNl hclean)
  have hform : ensureNl sec ++ exclBlock files
      = (ensureNl sec).dropLast ++ '\n' :: exclBlock files := by
    conv_lhs => rw [ht]
    simp
  have hsecrm : Pyright.remove_exclusions (Pyright.postInit (ensureNl sec ++ exclBlock files))
      = some (ensureNl sec) := by
    rw [Pyright_postInit_present contains_true_of_append_exclBlock, hform,
      Pyright_clear_written htclean hrb, ← ht]
  simp only [PyrightToml.remove_exclusions, Pyproject.postInit, hpi, Pyproject.extract, hex,
    hsecrm, Pyproject.replace, hrep (ensureNl sec) (header_prefix_ensureNl hhead)]

theorem identify_on_clean {pre sec suf : Str}
    (tool : List Str → List Diag) (repo_root : Str) (required : List Str)
    (hstart : findSub HEADER ((pre ++ sec) ++ suf) = some pre.length)
    (hhead : HEADER <+: sec)
    (hclean : containsSub EXCLUDE sec = false)
    (hnolb : findSub ('\n' :: ['[']) (sec.drop HEADER.length) = none)
    (hsuf : suf = [] ∨ ('\n' :: ['[']) <+: suf)
    (hnl : ∀ f ∈ required, '\n' ∉ f)
    (hrb : ∀ f ∈ required, ']' ∉ f) :
    PyrightToml.identify_failing_modules tool repo_root ((pre ++ sec) ++ suf) required
      = some (failing_relpaths repo_root (tool required),
          if required = [] then (pre ++ sec) ++ suf else (pre ++ ensureNl sec) ++ suf) := by
  by_cases hr : required = []
  · subst hr
    simp only [PyrightToml.identify_failing_modules,
      set_on_clean_nil hstart hhead hclean hnolb hsuf,
      remove_on_clean hstart hhead hclean hnolb hsuf, if_pos rfl]
    simp
  · rw [if_neg hr]
    simp only [PyrightToml.identify_failing_modules,
      set_on_clean hstart hhead hclean hnolb hsuf hr,
      remove_on_written hstart hhead hclean hnolb hsuf hnl hrb]

theorem exclude_on_clean {pre sec suf : Str}
    (is_dir : Str → Bool) (tool : List Str → List Diag) (repo_root : Str)
    (required : Option (List Str))
    (hstart : findSub HEADER ((pre ++ sec) ++ suf) = some pre.length)
    (hhead : HEADER <+: sec)
    (hclean : containsSub EXCLUDE sec = false)
    (hnolb : findSub ('\n' :: ['[']) (sec.drop HEADER.length) = none)
    (hsuf : suf = [] ∨ ('\n' :: ['[']) <+: suf)
    (hentries : ∀ f ∈ compile_ignores is_dir required
        ++ failing_relpaths repo_root (tool (compile_ignores is_dir required)),
        '\n' ∉ f ∧ ']' ∉ f) :
    PyrightToml.exclude is_dir tool repo_root ((pre ++ sec) ++ suf) required
      = some (if compile_ignores is_dir required
            ++ failing_relpaths repo_root (tool (compile_ignores is_dir required)) = []
          then (pre ++ sec) ++ suf
          else (pre ++ (ensureNl sec ++ exclBlock (compile_ignores is_dir required
            ++ failing_relpaths repo_root (tool (compile_ignores is_dir required))))) ++ suf) := by
  have hInl : ∀ f ∈ compile_ignores is_dir required, '\n' ∉ f :=
    fun f hf => (hentries f (List.mem_append_left _ hf)).1
  have hIrb : ∀ f ∈ compile_ignores is_dir required, ']' ∉ f :=
    fun f hf => (hentries f (List.mem_append_left _ hf)).2
  have hid := identify_on_clean tool repo_root (compile_ignores is_dir required)
    hstart hhead hclean hnolb hsuf hInl hIrb
  by_cases hL : compile_ignores is_dir required
      ++ failing_relpaths repo_root (tool (compile_ignores is_dir required)) = []
  · rw [if_pos hL]
    have hI : compile_ignores is_dir required = [] := (List.append_eq_nil.mp hL).1
    rw [if_pos hI] at hid
    simp only [PyrightToml.exclude, remove_on_clean hstart hhead hclean hnolb hsuf, hid]
    rw [hL]
    exact set_on_clean_nil hstart hhead hclean hnolb hsuf
  · rw [if_neg hL]
    by_cases hI : compile_ignores is_dir required = []
    · rw [if_pos hI] at hid
      simp only [PyrightToml.exclude, remove_on_clean hstart hhead hclean hnolb hsuf, hid]
      exact set_on_clean hstart hhead hclean hnolb hsuf hL
    · rw [if_neg hI] at hid
      simp only [PyrightToml.exclude, remove_on_clean hstart hhead hclean hnolb hsuf, hid]
      have hres := set_on_clean
        (start_transfer hstart hhead (header_prefix_ensureNl hhead))
        (header_prefix_ensureNl hhead)
        (contains_false_ensureNl hclean)
        (nolb_drop_ensureNl hhead hnolb)
        hsuf hL
      rw [hres, ensureNl_idem]

theorem exclude_on_written {pre sec suf : Str}
    (is_dir : Str → Bool) (tool : List Str → List Diag) (repo_root : Str)
    (required : Option (List Str))
    (hstart : findSub HEADER ((pre ++ sec) ++ suf) = some pre.length)
    (hhead : HEADER <+: sec)
    (hclean : containsSub EXCLUDE sec = false)
    (hnolb : findSub ('\n' :: ['[']) (sec.drop HEADER.length) = none)
    (hsuf : suf = [] ∨ ('\n' :: ['[']) <+: suf)
    (hentries : ∀ f ∈ compile_ignores is_dir required
        ++ failing_relpaths repo_root (tool (compile_ignores is_dir required)),
        '\n' ∉ f ∧ ']' ∉ f)
    (hL : compile_ignores is_dir required
        ++ failing_relpaths repo_root (tool (compile_ignores is_dir required)) ≠ []) :
    PyrightToml.exclude is_dir tool repo_root
        ((pre ++ (ensureNl sec ++ exclBlock (compile_ignores is_dir required
          ++ failing_relpaths repo_root (tool (compile_ignores is_dir required))))) ++ suf) required
      = some ((pre ++ (ensureNl sec ++ exclBlock (compile_ignores is_dir required
          ++ failing_relpaths repo_root (tool (compile_ignores is_dir required))))) ++ suf) := by
  have hLnl : ∀ f ∈ compile_ignores is_dir required
      ++ failing_relpaths repo_root (tool (compile_ignores is_dir required)), '\n' ∉ f :=
    fun f hf => (hentries f hf).1
  have hLrb : ∀ f ∈ compile_ignores is_dir required
      ++ failing_relpaths repo_root (tool (compile_ignores is_dir required)), ']' ∉ f :=
    fun f hf => (hentries f hf).2
  have hInl : ∀ f ∈ compile_ignores is_dir required, '\n' ∉ f :=
    fun f hf => (hentries f (List.mem_append_left _ hf)).1
  have hIrb : ∀ f ∈ compile_ignores is_dir required, ']' ∉ f :=
    fun f hf => (hentries f (List.mem_append_left _ hf)).2
  have hstart2 : findSub HEADER ((pre ++ ensureNl sec) ++ suf) = some pre.length :=
    start_transfer hstart hhead (header_prefix_ensureNl hhead)
  have hhead2 : HEADER <+: ensureNl sec := header_prefix_ensureNl hhead
  have hclean2 : containsSub EXCLUDE (ensureNl sec) = false := contains_false_ensureNl hclean
  have hnolb2 : findSub ('\n' :: ['[']) ((ensureNl sec).drop HEADER.length) = none :=
    nolb_drop_ensureNl hhead hnolb
  have hrm := remove_on_written hstart hhead hclean hnolb hsuf hLnl hLrb
  have hid := identify_on_clean tool repo_root (compile_ignores is_dir required)
    hstart2 hhead2 hclean2 hnolb2 hsuf hInl hIrb
  rw [ensureNl_idem] at hid
  have hid2 : PyrightToml.identify_failing_modules tool repo_root
      ((pre ++ ensureNl sec) ++ suf) (compile_ignores is_dir required)
      = some (failing_relpaths repo_root (tool (compile_ignores is_dir required)),
          (pre ++ ensureNl sec) ++ suf) := by
    rw [hid, ite_self]
  simp only [PyrightToml.exclude, hrm, hid2]
  have hres := set_on_clean hstart2 hhead2 hclean2 hnolb2 hsuf hL
  rw [hres, ensureNl_idem]

/-- C5 (amended): after `identify_failing_modules` returns, the temporary
exclusions staged in its first step have been cleared from the persisted
document — the document equals the input again, except that when
exclusions were staged the section text is normalised to end in a newline —
and the exclusion key has been removed from the target section entirely
(the section contains no occurrence of `exclude`), rather than the key
remaining present with an empty value. -/
theorem C5_unstage_amended {pre sec suf : Str} {required : List Str}
    (tool : List Str → List Diag) (repo_root : Str)
    (hstart : findSub PyrightToml.HEADER ((pre ++ sec) ++ suf) = some pre.length)
    (hhead : PyrightToml.HEADER <+: sec)
    (hclean : containsSub PyrightToml.EXCLUDE sec = false)
    (hnolb : findSub ('\n' :: ['[']) (sec.drop PyrightToml.HEADER.length) = none)
    (hsuf : suf = [] ∨ ('\n' :: ['[']) <+: suf)
    (hnl : ∀ f ∈ required, '\n' ∉ f)
    (hrb : ∀ f ∈ required, ']' ∉ f) :
    PyrightToml.identify_failing_modules tool repo_root ((pre ++ sec) ++ suf) required
      = some (PyrightToml.failing_relpaths repo_root (tool required),
          if required = [] then (pre ++ sec) ++ suf else (pre ++ ensureNl sec) ++ suf) ∧
    containsSub PyrightToml.EXCLUDE (ensureNl sec) = false :=
  ⟨identify_on_clean tool repo_root required hstart hhead hclean hnolb hsuf hnl hrb,
   contains_false_ensureNl hclean⟩

/-- Witness for amended C5 on a concrete document and staged list. -/
theorem C5_unstage_amended_witness :
    PyrightToml.identify_failing_modules (fun _ => []) "/r".toList
        (("x\n".toList ++ "[tool.pyright]\n".toList) ++ ([] : Str)) ["a.py".toList]
      = some (PyrightToml.failing_relpaths "/r".toList [],
          if (["a.py".toList] : List Str) = []
          then ("x\n".toList ++ "[tool.pyright]\n".toList) ++ ([] : Str)
          else ("x\n".toList ++ ensureNl "[tool.pyright]\n".toList) ++ ([] : Str)) ∧
    containsSub PyrightToml.EXCLUDE (ensureNl "[tool.pyright]\n".toList) = false :=
  C5_unstage_amended (fun _ => []) "/r".toList (by decide) (by decide) (by decide)
    (by decide) (Or.inl rfl) (by decide) (by decide)

/-- C5 counterexample: after the unstage step of the scan, the persisted
document contains no occurrence of `exclude` at all — the exclusion key
was removed from the section, not left present with an empty value as the
claim asserts. -/
theorem C5_counterexample :
    PyrightToml.identify_failing_modules (fun _ => []) "/r".toList
        "x\n[tool.pyright]\n".toList ["a.py".toList]
      = some ([], "x\n[tool.pyright]\n".toList) ∧
    containsSub PyrightToml.EXCLUDE "x\n[tool.pyright]\n".toList = false := by
  refine ⟨by decide, by decide⟩

/-- C3 (amended): when the target section header is already present in the
document, the section text contains no occurrence of `exclude`, the
resolved default-ignore list is empty, and the tool reports no
error-severity diagnostics, reconciliation returns the document
byte-identical to its input. -/
theorem C3_no_failures_amended {pre sec suf : Str}
    (is_dir : Str → Bool) (tool : List Str → List Diag) (repo_root : Str)
    (required : Option (List Str))
    (hstart : findSub PyrightToml.HEADER ((pre ++ sec) ++ suf) = some pre.length)
    (hhead : PyrightToml.HEADER <+: sec)
    (hclean : containsSub PyrightToml.EXCLUDE sec = false)
    (hnolb : findSub ('\n' :: ['[']) (sec.drop PyrightToml.HEADER.length) = none)
    (hsuf : suf = [] ∨ ('\n' :: ['[']) <+: suf)
    (hign : PyrightToml.compile_ignores is_dir required = [])
    (hnofail : (tool (PyrightToml.compile_ignores is_dir required)).filter
        (fun it => it.severity == PyrightToml.ERROR) = []) :
    PyrightToml.exclude is_dir tool repo_root ((pre ++ sec) ++ suf) required
      = some ((pre ++ sec) ++ suf) := by
  have hfail : failing_relpaths repo_root (tool (compile_ignores is_dir required)) = [] := by
    unfold failing_relpaths
    rw [hnofail]
    rfl
  have hL : compile_ignores is_dir required
      ++ failing_relpaths repo_root (tool (compile_ignores is_dir required)) = [] := by
    rw [hfail, hign]
    rfl
  have hentries : ∀ f ∈ compile_ignores is_dir required
      ++ failing_relpaths repo_root (tool (compile_ignores is_dir required)),
      '\n' ∉ f ∧ ']' ∉ f := by
    rw [hL]
    intro f hf
    exact absurd hf (List.not_mem_nil f)
  have h := exclude_on_clean is_dir tool repo_root required hstart hhead hclean hnolb hsuf hentries
  rw [if_pos hL] at h
  exact h

/-- Witness for amended C3: a repository with no failing files, no ignore
directories, and a present header is reconciled to itself. -/
theorem C3_no_failures_amended_witness :
    PyrightToml.exclude (fun _ => false) (fun _ => []) "/r".toList
        (("x\n".toList ++ "[tool.pyright]\nfoo = 3\n".toList) ++ "\n[b]\n".toList) none
      = some (("x\n".toList ++ "[tool.pyright]\nfoo = 3\n".toList) ++ "\n[b]\n".toList) :=
  C3_no_failures_amended (fun _ => false) (fun _ => []) "/r".toList none (by decide)
    (by decide) (by decide) (by decide) (Or.inr (by decide)) (by decide) (by decide)

/-- C3 counterexample: the claim ranges over every repository with no
failing files, but on a document lacking the target header the
reconciliation appends a section, so the output is not byte-identical to
the input. -/
theorem C3_counterexample :
    PyrightToml.exclude (fun _ => false) (fun _ => []) "/r".toList "x".toList none
      = some "x\n[tool.pyright]\n".toList ∧
    ("x\n[tool.pyright]\n".toList : Str) ≠ "x".toList := by
  refine ⟨by decide, by decide⟩

/-- C2 (amended): reconciliation is idempotent on documents whose target
section contains no stray occurrence of `exclude` and whose written
entries contain no newline or closing-bracket characters: running
`exclude` twice with an unchanged tool yields the same document both
times. -/
theorem C2_reconcile_idempotent_amended {pre sec suf : Str}
    (is_dir : Str → Bool) (tool : List Str → List Diag) (repo_root : Str)
    (required : Option (List Str))
    (hstart : findSub PyrightToml.HEADER ((pre ++ sec) ++ suf) = some pre.length)
    (hhead : PyrightToml.HEADER <+: sec)
    (hclean : containsSub PyrightToml.EXCLUDE sec = false)
    (hnolb : findSub ('\n' :: ['[']) (sec.drop PyrightToml.HEADER.length) = none)
    (hsuf : suf = [] ∨ ('\n' :: ['[']) <+: suf)
    (hentries : ∀ f ∈ PyrightToml.compile_ignores is_dir required
        ++ PyrightToml.failing_relpaths repo_root
            (tool (PyrightToml.compile_ignores is_dir required)),
        '\n' ∉ f ∧ ']' ∉ f) :
    ∃ d1, PyrightToml.exclude is_dir tool repo_root ((pre ++ sec) ++ suf) required = some d1 ∧
      PyrightToml.exclude is_dir tool repo_root d1 required = some d1 := by
  have h1 := exclude_on_clean is_dir tool repo_root required hstart hhead hclean hnolb hsuf hentries
  by_cases hL : compile_ignores is_dir required
      ++ failing_relpaths repo_root (tool (compile_ignores is_dir required)) = []
  · rw [if_pos hL] at h1
    exact ⟨_, h1, h1⟩
  · rw [if_neg hL] at h1
    exact ⟨_, h1,
      exclude_on_written is_dir tool repo_root required hstart hhead hclean hnolb hsuf hentries hL⟩

/-- Witness for amended C2 on a concrete repository state with one
required exclusion and one discovered failure. -/
theorem C2_reconcile_idempotent_amended_witness :
    ∃ d1, PyrightToml.exclude (fun _ => false)
        (fun _ => [⟨"/r/a.py".toList, "error".toList⟩]) "/r".toList
        (("x\n".toList ++ "[tool.pyright]\n".toList) ++ ([] : Str)) (some ["b.py".toList])
      = some d1 ∧
      PyrightToml.exclude (fun _ => false)
        (fun _ => [⟨"/r/a.py".toList, "error".toList⟩]) "/r".toList
        d1 (some ["b.py".toList]) = some d1 :=
  C2_reconcile_idempotent_amended (fun _ => false)
    (fun _ => [⟨"/r/a.py".toList, "error".toList⟩]) "/r".toList (some ["b.py".toList])
    (by decide) (by decide) (by decide) (by decide) (Or.inl rfl) (by decide)

/-- C2 counterexample: the claim ranges over every repository state, but on
a document whose pyright section contains five stray `"\nexclude]"` spans
the first reconciliation strips four of them (baseline clear, staging
write, unstage, final write each strip one) and the second run strips the
fifth, so the document after the second run differs from the document
after the first. -/
theorem C2_counterexample :
    PyrightToml.exclude (fun _ => false) (fun _ => []) "/r".toList
        "[tool.pyright]\nexclude]\nexclude]\nexclude]\nexclude]\nexclude]".toList none
      = some "[tool.pyright]\nexclude]".toList ∧
    PyrightToml.exclude (fun _ => false) (fun _ => []) "/r".toList
        "[tool.pyright]\nexclude]".toList none
      = some "[tool.pyright]".toList ∧
    ("[tool.pyright]".toList : Str) ≠ "[tool.pyright]\nexclude]".toList := by
  refine ⟨by decide, by decide, by decide⟩

theorem Doc_postInit_contains (header content : Str) :
    containsSub header (Doc.postInit header content) = true := by
  cases hc : containsSub header content with
  | true => rw [Doc_postInit_present hc]; exact hc
  | false =>
    unfold Doc.postInit
    rw [hc]
    simp only [Bool.false_eq_true, if_false]
    rw [containsSub_eq_true_iff]
    refine ⟨content.length + 1, ?_⟩
    rw [drop_append_ge (by omega)]
    have h1 : content.length + 1 - content.length = 1 := by omega
    rw [h1]
    exact List.prefix_append header ['\n']

/-- C6 (amended): after construction the target header is present in the
document; the construction is the identity when the header was already
present (idempotence); when it was absent, the document becomes
`content ++ "\n" ++ header ++ "\n"` — which separates the new section from
the prior content by a blank line exactly when the prior content already
ends in a newline, not unconditionally; and after every edit the header is
present, since `replace` reconstructs the wrapper and re-runs the
constructor on the spliced content. -/
theorem C6_ensure_section_amended (header content : Str) :
    containsSub header (Doc.postInit header content) = true ∧
    (containsSub header content = true → Doc.postInit header content = content) ∧
    (containsSub header content = false →
      Doc.postInit header content = content ++ '\n' :: (header ++ ['\n'])) ∧
    (∀ new doc2, Doc.replace header content new = some doc2 →
      containsSub header doc2 = true) := by
  have hpos : containsSub header content = true → Doc.postInit header content = content := by
    intro h
    unfold Doc.postInit
    rw [h]
    simp
  have hneg : containsSub header content = false →
      Doc.postInit header content = content ++ '\n' :: (header ++ ['\n']) := by
    intro h
    unfold Doc.postInit
    rw [h]
    simp
  refine ⟨Doc_postInit_contains header content, hpos, hneg, ?_⟩
  intro new doc2 hrep
  unfold Doc.replace at hrep
  cases hws : Doc.where_start header content with
  | none => simp [hws] at hrep
  | some s =>
    cases hwe : Doc.where_end header content with
    | none => simp [hws, hwe] at hrep
    | some e =>
      simp only [hws, hwe, Option.some.injEq] at hrep
      rw [← hrep]
      exact Doc_postInit_contains header _

/-- Witness for amended C6: appending the synthesized section on a
newline-terminated document. -/
theorem C6_ensure_section_amended_witness :
    Doc.postInit PyrightToml.HEADER "x\n".toList
      = "x\n".toList ++ '\n' :: (PyrightToml.HEADER ++ ['\n']) :=
  (C6_ensure_section_amended PyrightToml.HEADER "x\n".toList).2.2.1 (by decide)

/-- C6 counterexample: on a document that does not end in a newline and
lacks the header, the synthesized section is not separated from the prior
content by a blank line — the resulting document contains no two
consecutive newlines at all. -/
theorem C6_counterexample :
    containsSub PyrightToml.HEADER "x".toList = false ∧
    PyrightToml.Pyproject.postInit "x".toList = "x\n[tool.pyright]\n".toList ∧
    containsSub ('\n' :: ['\n']) (PyrightToml.Pyproject.postInit "x".toList) = false := by
  refine ⟨by decide, by decide, by decide⟩

theorem compile_ignores_sorted (is_dir : Str → Bool) (required : Option (List Str)) :
    strSorted (PyrightToml.compile_ignores is_dir required) :=
  strSorted_sortStrs _

theorem compile_ignores_nodup (is_dir : Str → Bool) (required : Option (List Str)) :
    (PyrightToml.compile_ignores is_dir required).Nodup := by
  unfold PyrightToml.compile_ignores
  apply nodup_sortStrs
  rw [List.nodup_append]
  refine ⟨?_, ?_, ?_⟩
  · apply List.Nodup.map
    · exact fun a b h => List.append_left_injective _ h
    · exact List.Nodup.filter is_dir (by decide)
  · exact List.Nodup.filter _ nodup_dedupStrs
  · intro x hx hx2
    rw [List.mem_filter] at hx2
    have h2 := hx2.2
    have hmem : ((PyrightToml.default_ignored_directories.filter is_dir).map
        (fun item => item ++ "/*".toList)).contains x = true := List.elem_iff.mpr hx
    rw [hmem] at h2
    cases h2

theorem compile_ignores_mem (is_dir : Str → Bool) (required : Option (List Str)) (x : Str) :
    x ∈ PyrightToml.compile_ignores is_dir required ↔
      (x ∈ required.getD [] ∨
        ∃ d ∈ PyrightToml.default_ignored_directories, is_dir d = true ∧ x = d ++ "/*".toList) := by
  unfold PyrightToml.compile_ignores
  rw [mem_sortStrs, List.mem_append]
  constructor
  · rintro (hx | hx)
    · right
      rw [List.mem_map] at hx
      obtain ⟨d, hd, rfl⟩ := hx
      rw [List.mem_filter] at hd
      exact ⟨d, hd.1, hd.2, rfl⟩
    · left
      rw [List.mem_filter, mem_dedupStrs] at hx
      exact hx.1
  · rintro (hx | ⟨d, hd, hdir, rfl⟩)
    · by_cases hmem : x ∈ (PyrightToml.default_ignored_directories.filter is_dir).map
          (fun item => item ++ "/*".toList)
      · exact Or.inl hmem
      · right
        rw [List.mem_filter, mem_dedupStrs]
        refine ⟨hx, ?_⟩
        cases hc : ((PyrightToml.default_ignored_directories.filter is_dir).map
            (fun item => item ++ "/*".toList)).contains x with
        | false => rfl
        | true => exact absurd (List.elem_iff.mp hc) hmem
    · exact Or.inl (List.mem_map.mpr ⟨d, List.mem_filter.mpr ⟨hd, hdir⟩, rfl⟩)

/-- C9: `compile_ignores` returns the lexicographically sorted,
duplicate-free union of the required exclusions with the glob entries
`<name>/*` for exactly those well-known directory names (`.venv`, `.tox`,
`docs`) that exist as directories under the repository root at call time
(per `is_dir`); a name whose directory does not exist contributes an entry
only if it is itself a required exclusion. -/
theorem C9_compile_ignores_spec (is_dir : Str → Bool) (required : Option (List Str)) :
    strSorted (PyrightToml.compile_ignores is_dir required) ∧
    (PyrightToml.compile_ignores is_dir required).Nodup ∧
    (∀ x, x ∈ PyrightToml.compile_ignores is_dir required ↔
      (x ∈ required.getD [] ∨
        ∃ d ∈ PyrightToml.default_ignored_directories, is_dir d = true ∧ x = d ++ "/*".toList)) :=
  ⟨compile_ignores_sorted is_dir required, compile_ignores_nodup is_dir required,
   compile_ignores_mem is_dir required⟩

theorem failing_relpaths_eq (repo_root : Str) (diags : List Diag) :
    PyrightToml.failing_relpaths repo_root diags
      = sortStrs ((dedupStrs ((diags.filter (fun it => it.severity == PyrightToml.ERROR)).map
          (fun it => it.file))).map (fun p => p.drop (repo_root.length + 1))) := by
  unfold PyrightToml.failing_relpaths
  have hid : (fun c => if c = PyrightToml.OSSEP then '/' else c) = id := by
    funext c
    by_cases h : c = PyrightToml.OSSEP
    · rw [if_pos h, h]
      rfl
    · rw [if_neg h]
      rfl
  rw [hid]
  simp

/-- C10: the pyright scan collects exactly the distinct `file` paths of
the diagnostic records whose `severity` equals `error` (records of any
other severity contribute nothing), stripped of the repository-root
prefix; the ruff scan collects the `filename` of every record in the
report with no severity filter, also relative to the repository root. -/
theorem C10_report_filters (repo_root : Str) (diags : List Diag)
    (routput : List RuffToml.RuffDiag) :
    (∀ x, x ∈ PyrightToml.failing_relpaths repo_root diags ↔
      ∃ d ∈ diags, d.severity = PyrightToml.ERROR ∧ x = d.file.drop (repo_root.length + 1)) ∧
    (∀ x, x ∈ RuffToml.run_ruff routput repo_root ↔
      ∃ r ∈ routput, x = r.filename.drop (repo_root.length + 1)) := by
  constructor
  · intro x
    rw [failing_relpaths_eq, mem_sortStrs, List.mem_map]
    constructor
    · rintro ⟨p, hp, rfl⟩
      rw [mem_dedupStrs, List.mem_map] at hp
      obtain ⟨d, hd, rfl⟩ := hp
      rw [List.mem_filter] at hd
      exact ⟨d, hd.1, by simpa using hd.2, rfl⟩
    · rintro ⟨d, hd, hsev, rfl⟩
      exact ⟨d.file, mem_dedupStrs.mpr
        (List.mem_map.mpr ⟨d, List.mem_filter.mpr ⟨hd, by simpa using hsev⟩, rfl⟩), rfl⟩
  · intro x
    unfold RuffToml.run_ruff
    by_cases h : routput = []
    · subst h
      simp
    · rw [if_neg h, mem_sortStrs, List.mem_map]
      constructor
      · rintro ⟨p, hp, rfl⟩
        rw [mem_dedupStrs, List.mem_map] at hp
        obtain ⟨r, hr, rfl⟩ := hp
        exact ⟨r, hr, rfl⟩
      · rintro ⟨r, hr, rfl⟩
        exact ⟨r.filename, mem_dedupStrs.mpr (List.mem_map.mpr ⟨r, hr, rfl⟩), rfl⟩

/-- C1 (amended): the list the reconciliation persists via
`set_exclusions` is exactly the concatenation `ignores ++ failures`, in
that order, where the resolved ignores are lexicographically sorted and
duplicate-free and the discovered failures are sorted; the concatenation
itself is in general neither globally sorted nor duplicate-free. -/
theorem C1_final_list_amended (is_dir : Str → Bool) (tool : List Str → List Diag)
    (repo_root : Str) (required : Option (List Str)) :
    PyrightToml.exclude_files is_dir tool repo_root required
      = PyrightToml.compile_ignores is_dir required
        ++ PyrightToml.failing_relpaths repo_root
            (tool (PyrightToml.compile_ignores is_dir required)) ∧
    strSorted (PyrightToml.compile_ignores is_dir required) ∧
    (PyrightToml.compile_ignores is_dir required).Nodup ∧
    strSorted (PyrightToml.failing_relpaths repo_root
        (tool (PyrightToml.compile_ignores is_dir required))) := by
  refine ⟨rfl, compile_ignores_sorted is_dir required, compile_ignores_nodup is_dir required, ?_⟩
  rw [failing_relpaths_eq]
  exact strSorted_sortStrs _

/-- C1 counterexample: with required exclusion `b.py` and a tool reporting
errors in `a.py` and `b.py`, the list the reconciliation persists is
`["b.py", "a.py", "b.py"]` — neither lexicographically sorted nor
duplicate-free — and the persisted document renders the entries in exactly
that order. -/
theorem C1_counterexample :
    PyrightToml.exclude_files (fun _ => false)
        (fun _ => [⟨"/a.py".toList, "error".toList⟩, ⟨"/b.py".toList, "error".toList⟩])
        "".toList (some ["b.py".toList])
      = ["b.py".toList, "a.py".toList, "b.py".toList] ∧
    ¬ strSorted ["b.py".toList, "a.py".toList, "b.py".toList] ∧
    ¬ (["b.py".toList, "a.py".toList, "b.py".toList] : List Str).Nodup ∧
    PyrightToml.exclude (fun _ => false)
        (fun _ => [⟨"/a.py".toList, "error".toList⟩, ⟨"/b.py".toList, "error".toList⟩])
        "".toList "x\n[tool.pyright]\n".toList (some ["b.py".toList])
      = some "x\n[tool.pyright]\nexclude = [\n    \"b.py\",\n    \"a.py\",\n    \"b.py\",\n]\n".toList := by
  refine ⟨by decide, ?_, by decide, by decide⟩
  unfold strSorted
  decide

/-- C4 (amended): `replace` splices the new section text into the
`[start, end)` span and re-runs the dataclass constructor on the result:
whenever the spliced document still contains the header — in particular
whenever the replacement text contains it, as in every edit this system
performs — the produced document is exactly the prefix before `start`, the
new text, and the suffix from `end` on, with all text outside the span
preserved verbatim; when the replacement leaves the document header-less,
the constructor additionally appends a synthesized `"\n" + header + "\n"`
section after the suffix.  `Pyproject.replace` and `Ruff.replace` are this
operation at their respective headers. -/
theorem C4_replace_frame (header content new : Str) (s : Nat)
    (hs : Doc.where_start header content = some s) :
    ∃ e, Doc.where_end header content = some e ∧
      (containsSub header (content.take s ++ new ++ content.drop e) = true →
        Doc.replace header content new = some (content.take s ++ new ++ content.drop e)) ∧
      (containsSub header (content.take s ++ new ++ content.drop e) = false →
        Doc.replace header content new
          = some ((content.take s ++ new ++ content.drop e) ++ '\n' :: (header ++ ['\n']))) := by
  obtain ⟨e, he⟩ : ∃ e, Doc.where_end header content = some e := by
    rcases where_end_cases header content s hs with ⟨_, he⟩ | ⟨i, _, he⟩
    · exact ⟨_, he⟩
    · exact ⟨_, he⟩
  have hbase : Doc.replace header content new
      = some (Doc.postInit header (content.take s ++ new ++ content.drop e)) := by
    simp only [Doc.replace, hs, he]
  refine ⟨e, he, ?_, ?_⟩
  · intro hc
    rw [hbase, Doc_postInit_present hc]
  · intro hc
    rw [hbase]
    unfold Doc.postInit
    rw [hc]
    simp

/-- Witness for amended C4: replacing with a section text that contains
the header yields exactly the bare splice, with the prefix and suffix
preserved verbatim. -/
theorem C4_replace_frame_witness :
    Doc.replace PyrightToml.HEADER "a\n[tool.pyright]\nz = 1\n\n[b]\nq = 2\n".toList
        "[tool.pyright]\nNEW\n".toList
      = some (("a\n[tool.pyright]\nz = 1\n\n[b]\nq = 2\n".toList).take 2
          ++ "[tool.pyright]\nNEW\n".toList
          ++ ("a\n[tool.pyright]\nz = 1\n\n[b]\nq = 2\n".toList).drop 23) := by
  obtain ⟨e, he, hpos, -⟩ := C4_replace_frame PyrightToml.HEADER
    "a\n[tool.pyright]\nz = 1\n\n[b]\nq = 2\n".toList "[tool.pyright]\nNEW\n".toList 2 (by decide)
  have h23 : Doc.where_end PyrightToml.HEADER
      "a\n[tool.pyright]\nz = 1\n\n[b]\nq = 2\n".toList = some 23 := by decide
  rw [he] at h23
  have he23 : e = 23 := Option.some.inj h23
  subst he23
  exact hpos (by decide)

/-- C4 counterexample: the claim quantifies over every replacement section
text, but a replacement that leaves the document header-less makes the
re-run constructor append a synthesized section, so the program's output
is not the bare splice: text is added beyond the original suffix rather
than everything outside the edited span being left untouched. -/
theorem C4_counterexample :
    Doc.where_start PyrightToml.HEADER "a\n[tool.pyright]\nz = 1\n\n[b]\nq = 2\n".toList
      = some 2 ∧
    Doc.where_end PyrightToml.HEADER "a\n[tool.pyright]\nz = 1\n\n[b]\nq = 2\n".toList
      = some 23 ∧
    Doc.replace PyrightToml.HEADER "a\n[tool.pyright]\nz = 1\n\n[b]\nq = 2\n".toList "NEW".toList
      = some "a\nNEW\n[b]\nq = 2\n\n[tool.pyright]\n".toList ∧
    ("a\nNEW\n[b]\nq = 2\n\n[tool.pyright]\n".toList : Str)
      ≠ ("a\n[tool.pyright]\nz = 1\n\n[b]\nq = 2\n".toList).take 2 ++ "NEW".toList
        ++ ("a\n[tool.pyright]\nz = 1\n\n[b]\nq = 2\n".toList).drop 23 := by
  refine ⟨by decide, by decide, by decide, by decide⟩
